import Mathlib

set_option maxRecDepth 4000

/-!
# Verification of the Content-based Image Retrieval feature engine

This file embeds the feature-extraction, normalization, distance-metric,
store-serialization and top-K matching code of the CBIR repository
(compute_features.cpp, compute_featurescolorandtexture.cpp,
compute_featuresmulti.cpp, compute_histo_features.cpp, custom_design.cpp,
find_matches.cpp, find_matchescolortexture.cpp, findmatcheswithdeepnetwork.cpp)
as executable Lean definitions, and proves or refutes the specification's
claims about them.

Modelling conventions:
* C++ `float`/`double` arithmetic is modelled by exact rational arithmetic (ℚ).
* A decoded OpenCV `Mat` image is modelled by `Image`: a `rows × cols` grid
  with a total pixel-access function `pix : ℤ → ℤ → Pixel`, mirroring the
  fact that `Mat::at<Vec3b>(y, x)` performs no bounds check (an out-of-range
  access reads whatever memory is there; the model makes it a total function).
* `Vec3b` channel order is B,G,R: `pixel[0]` is `Pixel.b`, `pixel[1]` is
  `Pixel.g`, `pixel[2]` is `Pixel.r`.
* A multi-dimensional histogram `Mat` is modelled as a total count function
  from bucket coordinates to ℕ, built by the same per-pixel increments the
  C++ loops perform.
-/

/-- One 3-channel pixel (`cv::Vec3b`), channel order B,G,R. -/
structure Pixel where
  b : ℕ
  g : ℕ
  r : ℕ
deriving DecidableEq

/-- A decoded image (`cv::Mat` of `Vec3b`). `pix` is total, modelling the
unchecked `Mat::at` access of the source. In-range pixels are
`pix y x` for `0 ≤ y < rows`, `0 ≤ x < cols`. -/
structure Image where
  rows : ℕ
  cols : ℕ
  pix : ℤ → ℤ → Pixel

/-- The bucket index computed for one channel value by `computeRGBHistogram`
(compute_featurescolorandtexture.cpp:65-67, identically in
find_matchescolortexture.cpp, custom_design.cpp, compute_featuresmulti.cpp):
`min(static_cast<int>(v * bins / 256), bins - 1)`.  The C++ arithmetic is
integer arithmetic on promoted `uchar`, so `v * bins / 256` is natural-number
division. -/
def rgbBinIndex (v bins : ℕ) : ℕ :=
  min (v * bins / 256) (bins - 1)

/-- The joint (rBin, gBin, bBin) bucket of a pixel: the r index comes from
channel 2, the g index from channel 1, the b index from channel 0. -/
def rgbBinOf (p : Pixel) (bins : ℕ) : ℕ × ℕ × ℕ :=
  (rgbBinIndex p.r bins, rgbBinIndex p.g bins, rgbBinIndex p.b bins)

/-- The row-major pixel traversal `for y in [0,rows) for x in [0,cols)`
shared by every whole-image histogram loop of the repository. -/
def pixelList (img : Image) : List Pixel :=
  (List.range img.rows).flatMap fun y =>
    (List.range img.cols).map fun x => img.pix (Int.ofNat y) (Int.ofNat x)

/-- `computeRGBHistogram` (compute_featurescolorandtexture.cpp:55-72):
starts from an all-zero `bins³` count `Mat` and increments the joint
`(rBin, gBin, bBin)` bucket once per pixel. -/
def computeRGBHistogram (img : Image) (bins : ℕ) : ℕ × ℕ × ℕ → ℕ :=
  (pixelList img).foldl
    (fun h p => Function.update h (rgbBinOf p bins) (h (rgbBinOf p bins) + 1))
    (fun _ => 0)

/-- The uniform solid-red 4×4 image of the spec's scenario:
every pixel has R=255, G=0, B=0. -/
def solidRed4x4 : Image :=
  { rows := 4, cols := 4, pix := fun _ _ => { b := 0, g := 0, r := 255 } }

/-- All bucket coordinates of a `bins³` histogram. -/
def allBuckets3 (bins : ℕ) : List (ℕ × ℕ × ℕ) :=
  (List.range bins).flatMap fun i =>
    (List.range bins).flatMap fun j =>
      (List.range bins).map fun k => (i, j, k)

/-- C1. The bucket index assigned by the 3D color histogram extractor equals
`⌊v * bins / 256⌋` clamped to `bins - 1` (the spec's real-valued floor formula
agrees with the code's integer division), and on the uniform solid-red 4×4
image with `bins = 8` the raw count vector is 16 at bucket (7,0,0) and 0 at
every other bucket. -/
theorem rgbBinIndex_floor_and_solidRed_scenario :
    (∀ v bins : ℕ, 1 ≤ bins → v ≤ 255 →
      rgbBinIndex v bins = min (Nat.floor ((v * bins : ℚ) / 256)) (bins - 1)) ∧
    (computeRGBHistogram solidRed4x4 8 (7, 0, 0) = 16 ∧
      ∀ p ∈ allBuckets3 8, p ≠ (7, 0, 0) → computeRGBHistogram solidRed4x4 8 p = 0) := by
  constructor
  · intro v bins _ _
    have h1 : ((v : ℚ) * bins) = ((v * bins : ℕ) : ℚ) := by push_cast; ring
    have h2 : (256 : ℚ) = ((256 : ℕ) : ℚ) := by norm_num
    rw [h1, h2, Nat.floor_div_nat, Nat.floor_natCast, rgbBinIndex]
  · constructor
    · decide
    · decide

/-- Witness for C1: the formula agrees with the code at v = 255, bins = 8
(both give bucket 7). -/
theorem rgbBinIndex_floor_witness :
    rgbBinIndex 255 8 = min (Nat.floor ((255 * 8 : ℚ) / 256)) 7 :=
  rgbBinIndex_floor_and_solidRed_scenario.1 255 8 (by decide) (by decide)

/-! ## Histogram normalization (compute_histo_features.cpp:68-74, identical
copies in compute_featurescolorandtexture.cpp, compute_featuresmulti.cpp,
find_matchescolortexture.cpp, custom_design.cpp, find_matcheshisto.cpp) -/

/-- `normalizeHistogram`: copies the histogram and divides every element by
the sum of all elements (`histNorm /= sum(hist)[0]`).  The function performs
no check on the sum; ℚ division by zero is 0 in the model (the C++ float
division by zero silently yields NaN/inf — in neither case is an error
condition raised). -/
def normalizeHistogram (l : List ℚ) : List ℚ :=
  l.map (fun x => x / l.sum)

/-- Sum of a list after dividing each element by a constant. -/
theorem sum_map_div (l : List ℚ) (c : ℚ) :
    (l.map (fun x => x / c)).sum = l.sum / c := by
  induction l with
  | nil => simp
  | cons a t ih => simp [ih, add_div]

/-- C7. On a non-negative histogram with strictly positive sum, the
normalizer returns a vector of identical length whose i-th element is the
i-th input element divided by the total; all outputs are non-negative and
they sum to exactly 1 (hence within any ε of 1). -/
theorem normalizeHistogram_spec (l : List ℚ)
    (hnn : ∀ x ∈ l, 0 ≤ x) (hpos : 0 < l.sum) :
    (normalizeHistogram l).length = l.length ∧
    (∀ i, i < l.length → (normalizeHistogram l).getD i 0 = l.getD i 0 / l.sum) ∧
    (∀ y ∈ normalizeHistogram l, 0 ≤ y) ∧
    (normalizeHistogram l).sum = 1 := by
  refine ⟨by simp [normalizeHistogram], ?_, ?_, ?_⟩
  · intro i hi
    rw [List.getD_eq_getElem _ _ (by simpa [normalizeHistogram] using hi),
      List.getD_eq_getElem _ _ hi]
    simp [normalizeHistogram]
  · intro y hy
    rcases List.mem_map.mp hy with ⟨x, hx, rfl⟩
    exact div_nonneg (hnn x hx) (le_of_lt hpos)
  · rw [normalizeHistogram, sum_map_div, div_self (ne_of_gt hpos)]

/-- Witness for C7 at the concrete histogram [1, 3]. -/
theorem normalizeHistogram_spec_witness :
    (normalizeHistogram [1, 3]).length = [(1 : ℚ), 3].length ∧
    (∀ i, i < [(1 : ℚ), 3].length →
      (normalizeHistogram [1, 3]).getD i 0 = [(1 : ℚ), 3].getD i 0 / [(1 : ℚ), 3].sum) ∧
    (∀ y ∈ normalizeHistogram [1, 3], 0 ≤ y) ∧
    (normalizeHistogram [1, 3]).sum = 1 :=
  normalizeHistogram_spec [1, 3] (by norm_num) (by norm_num)

/-- C8 evidence. On the all-zero histogram the code does not fail: there is
no zero-sum check and no error path in `normalizeHistogram`; it divides by
zero and still returns a 4-element vector (all-zero in the ℚ model, NaN in
IEEE float — either way a vector, never a DivideByZero error). -/
theorem normalizeHistogram_zero_sum_returns_vector :
    normalizeHistogram [0, 0, 0, 0] = [0, 0, 0, 0] ∧
    (normalizeHistogram [0, 0, 0, 0]).length = 4 := by
  constructor
  · simp [normalizeHistogram]
  · simp [normalizeHistogram]

/-! ## Distance metrics (custom_design.cpp:131-166) -/

/-- `computeHistogramIntersection` (custom_design.cpp:131-134, likewise
find_matchescolortexture.cpp:102-105): the sum of the element-wise minimum
of two equal-shape histograms. -/
def computeHistogramIntersection (h1 h2 : List ℚ) : ℚ :=
  (List.zipWith min h1 h2).sum

/-- `computeCosineDistance` (custom_design.cpp:137-154, identical in
findmatcheswithdeepnetwork.cpp:83-100): `1 - dot/(‖v1‖·‖v2‖)`.  The loop
runs over `v1.size()` indices of both vectors (the callers pass equal-length
vectors); `sqrt` is modelled by `Rat.sqrt`, exact on perfect squares.
ℚ division by zero is 0 (the C++ float division yields NaN). -/
def computeCosineDistance (v1 v2 : List ℚ) : ℚ :=
  let dotProduct := (List.zipWith (fun a b => a * b) v1 v2).sum
  let normV1 := Rat.sqrt ((v1.map (fun a => a * a)).sum)
  let normV2 := Rat.sqrt ((v2.map (fun a => a * a)).sum)
  1 - dotProduct / (normV1 * normV2)

/-- The weighted sum on custom_design.cpp:164:
`0.4f * colorDistance + 0.3f * textureDistance + 0.3f * deepDistance`. -/
def combineDistances (colorDistance textureDistance deepDistance : ℚ) : ℚ :=
  (4 / 10) * colorDistance + (3 / 10) * textureDistance + (3 / 10) * deepDistance

/-- `computeCombinedDistance` (custom_design.cpp:157-166): color and texture
sub-distances are `1 - HistogramIntersection`, the deep sub-distance is the
cosine distance, combined with weights 0.4/0.3/0.3. -/
def computeCombinedDistance (colorHist1 colorHist2 textureHist1 textureHist2
    deepFeature1 deepFeature2 : List ℚ) : ℚ :=
  combineDistances
    (1 - computeHistogramIntersection colorHist1 colorHist2)
    (1 - computeHistogramIntersection textureHist1 textureHist2)
    (computeCosineDistance deepFeature1 deepFeature2)

/-- C2. The combined distance equals
`0.4·(1 − intersection(color)) + 0.3·(1 − intersection(texture)) + 0.3·cosine(deep)`
for all inputs, and the weighted combination applied to sub-distances
(0.5, 0.2, 0.1) yields exactly 0.29. -/
theorem computeCombinedDistance_weighted_formula :
    (∀ c1 c2 t1 t2 d1 d2 : List ℚ,
      computeCombinedDistance c1 c2 t1 t2 d1 d2 =
        (4 / 10) * (1 - computeHistogramIntersection c1 c2) +
        (3 / 10) * (1 - computeHistogramIntersection t1 t2) +
        (3 / 10) * computeCosineDistance d1 d2) ∧
    combineDistances (1 / 2) (1 / 5) (1 / 10) = 29 / 100 := by
  constructor
  · intro c1 c2 t1 t2 d1 d2
    rfl
  · norm_num [combineDistances]

/-! ## Raw-count histograms cover every pixel exactly once (C10) -/

/-- A rectangular region (`cv::Rect`), as used by the multi-region extractor
(compute_featuresmulti.cpp:51-68, 102-103). -/
structure RectRegion where
  x : ℕ
  y : ℕ
  width : ℕ
  height : ℕ

/-- The pixel traversal of `computeRGBHistogram(image, bins, region)`
(compute_featuresmulti.cpp:56-58): `y` from `region.y` to
`region.y + region.height` exclusive, `x` from `region.x` to
`region.x + region.width` exclusive. -/
def regionPixelList (img : Image) (reg : RectRegion) : List Pixel :=
  (List.range reg.height).flatMap fun dy =>
    (List.range reg.width).map fun dx =>
      img.pix (Int.ofNat (reg.y + dy)) (Int.ofNat (reg.x + dx))

/-- The region variant of `computeRGBHistogram`
(compute_featuresmulti.cpp:51-68): same per-pixel bucket increment as the
whole-image version, restricted to the region's pixels. -/
def computeRGBHistogramRegion (img : Image) (bins : ℕ) (reg : RectRegion) :
    ℕ × ℕ × ℕ → ℕ :=
  (regionPixelList img reg).foldl
    (fun h p => Function.update h (rgbBinOf p bins) (h (rgbBinOf p bins) + 1))
    (fun _ => 0)

/-- The bucket index of one chromaticity channel in
`computeRGChromaticityHistogram` (compute_histo_features.cpp:57-60):
`min(static_cast<int>((v / 255.0) * bins), bins - 1)`.  The float expression
`(v / 255.0) * bins` truncated to int is modelled by the exact floor
`v * bins / 255` (natural-number division). -/
def chromBinIndex (v bins : ℕ) : ℕ :=
  min (v * bins / 255) (bins - 1)

/-- The joint (rBin, gBin) chromaticity bucket: r from channel 2, g from
channel 1. -/
def chromBinOf (p : Pixel) (bins : ℕ) : ℕ × ℕ :=
  (chromBinIndex p.r bins, chromBinIndex p.g bins)

/-- `computeRGChromaticityHistogram` (compute_histo_features.cpp:49-65):
a `bins²` count `Mat`, incrementing the joint (rBin, gBin) bucket once per
pixel of the whole image. -/
def computeRGChromaticityHistogram (img : Image) (bins : ℕ) : ℕ × ℕ → ℕ :=
  (pixelList img).foldl
    (fun h p => Function.update h (chromBinOf p bins) (h (chromBinOf p bins) + 1))
    (fun _ => 0)

/-- Total count of a `bins³` histogram over all of its buckets. -/
def bucketSum3 (bins : ℕ) (h : ℕ × ℕ × ℕ → ℕ) : ℕ :=
  ∑ p ∈ (Finset.range bins) ×ˢ (Finset.range bins) ×ˢ (Finset.range bins), h p

/-- Total count of a `bins²` histogram over all of its buckets. -/
def bucketSum2 (bins : ℕ) (h : ℕ × ℕ → ℕ) : ℕ :=
  ∑ p ∈ (Finset.range bins) ×ˢ (Finset.range bins), h p

/-- Folding per-element increments over a list adds the list's length to the
total of any bucket set containing every incremented bucket. -/
theorem sum_foldl_update {α β : Type} [DecidableEq β] (s : Finset β) (f : α → β)
    (l : List α) (hmem : ∀ a ∈ l, f a ∈ s) (init : β → ℕ) :
    (∑ b ∈ s, (l.foldl (fun h a => Function.update h (f a) (h (f a) + 1)) init) b) =
      l.length + ∑ b ∈ s, init b := by
  induction l generalizing init with
  | nil => simp
  | cons a t ih =>
    rw [List.foldl_cons, ih (fun x hx => hmem x (List.mem_cons_of_mem a hx))]
    have ha : f a ∈ s := hmem a (List.mem_cons_self a t)
    have hupd : (∑ b ∈ s, Function.update init (f a) (init (f a) + 1) b) =
        (init (f a) + 1) + ∑ b ∈ s.erase (f a), init b := by
      rw [Finset.sum_update_of_mem ha, Finset.sdiff_singleton_eq_erase]
    rw [hupd]
    have herase : init (f a) + ∑ b ∈ s.erase (f a), init b = ∑ b ∈ s, init b :=
      Finset.add_sum_erase s init ha
    simp only [List.length_cons]
    omega

/-- The r/g/b bucket index is always below `bins` when `bins ≥ 1`. -/
theorem rgbBinIndex_lt (v bins : ℕ) (hb : 1 ≤ bins) : rgbBinIndex v bins < bins := by
  rw [rgbBinIndex]
  omega

/-- The chromaticity bucket index is always below `bins` when `bins ≥ 1`. -/
theorem chromBinIndex_lt (v bins : ℕ) (hb : 1 ≤ bins) : chromBinIndex v bins < bins := by
  rw [chromBinIndex]
  omega

/-- Sum of a constant-valued map. -/
theorem sum_map_const_nat {α : Type} (l : List α) (c : ℕ) :
    (l.map fun _ => c).sum = l.length * c := by
  induction l with
  | nil => simp
  | cons a t ih => simp [ih, Nat.succ_mul, Nat.add_comm]

/-- The whole-image traversal scans `rows * cols` pixels. -/
theorem pixelList_length (img : Image) : (pixelList img).length = img.rows * img.cols := by
  rw [pixelList, List.length_flatMap]
  simp only [Function.comp_def, List.length_map, List.length_range]
  rw [sum_map_const_nat, List.length_range]

/-- The region traversal scans `width * height` pixels. -/
theorem regionPixelList_length (img : Image) (reg : RectRegion) :
    (regionPixelList img reg).length = reg.width * reg.height := by
  rw [regionPixelList, List.length_flatMap]
  simp only [Function.comp_def, List.length_map, List.length_range]
  rw [sum_map_const_nat, List.length_range, Nat.mul_comm]

/-- C10. For every image, region and `bins ≥ 1`, the raw (pre-normalization)
counts of the 3D color histogram (whole image and region variants) and of the
2D rg-chromaticity histogram sum to the number of pixels scanned: each pixel
increments exactly one in-range bucket. -/
theorem histogram_counts_sum_to_pixels (img : Image) (bins : ℕ) (reg : RectRegion)
    (hb : 1 ≤ bins) :
    bucketSum3 bins (computeRGBHistogram img bins) = img.rows * img.cols ∧
    bucketSum3 bins (computeRGBHistogramRegion img bins reg) = reg.width * reg.height ∧
    bucketSum2 bins (computeRGChromaticityHistogram img bins) = img.rows * img.cols := by
  have hmem3 : ∀ p : Pixel, rgbBinOf p bins ∈
      (Finset.range bins) ×ˢ (Finset.range bins) ×ˢ (Finset.range bins) := by
    intro p
    simp only [rgbBinOf, Finset.mem_product, Finset.mem_range]
    exact ⟨rgbBinIndex_lt _ _ hb, rgbBinIndex_lt _ _ hb, rgbBinIndex_lt _ _ hb⟩
  have hmem2 : ∀ p : Pixel, chromBinOf p bins ∈
      (Finset.range bins) ×ˢ (Finset.range bins) := by
    intro p
    simp only [chromBinOf, Finset.mem_product, Finset.mem_range]
    exact ⟨chromBinIndex_lt _ _ hb, chromBinIndex_lt _ _ hb⟩
  refine ⟨?_, ?_, ?_⟩
  · rw [bucketSum3, computeRGBHistogram,
      sum_foldl_update _ _ _ (fun a _ => hmem3 a) _]
    simp [pixelList_length]
  · rw [bucketSum3, computeRGBHistogramRegion,
      sum_foldl_update _ _ _ (fun a _ => hmem3 a) _]
    simp [regionPixelList_length]
  · rw [bucketSum2, computeRGChromaticityHistogram,
      sum_foldl_update _ _ _ (fun a _ => hmem2 a) _]
    simp [pixelList_length]

/-- Witness for C10: on the solid-red 4×4 image with 2 bins, the color
histogram counts sum to 16; over the region (0,0,3,2) they sum to 6; the
chromaticity counts sum to 16. -/
theorem histogram_counts_sum_to_pixels_witness :
    bucketSum3 2 (computeRGBHistogram solidRed4x4 2) = 16 ∧
    bucketSum3 2 (computeRGBHistogramRegion solidRed4x4 2 ⟨0, 0, 3, 2⟩) = 6 ∧
    bucketSum2 2 (computeRGChromaticityHistogram solidRed4x4 2) = 16 :=
  histogram_counts_sum_to_pixels solidRed4x4 2 ⟨0, 0, 3, 2⟩ (by decide)

/-! ## CenterPatch baseline extractor (compute_features.cpp:47-65) -/

/-- The (y, x) coordinates read by `computeBaselineFeatureVector`
(compute_features.cpp:49-57): `centerX = cols / 2`, `centerY = rows / 2`
(C++ `int` division), then `y` from `centerY - 3` to `centerY + 3` and `x`
from `centerX - 3` to `centerX + 3`, both inclusive.  The function performs
no size check before these accesses. -/
def centerPatchCoords (rows cols : ℤ) : List (ℤ × ℤ) :=
  (List.range 7).flatMap fun dy =>
    (List.range 7).map fun dx =>
      (rows / 2 - 3 + Int.ofNat dy, cols / 2 - 3 + Int.ofNat dx)

/-- `computeBaselineFeatureVector` (compute_features.cpp:47-65, identical in
find_matches.cpp:50-68): pushes the B, G, R channel values of each of the 49
center-patch pixels in row-major order, reading pixels through the unchecked
`Mat::at` access. -/
def computeBaselineFeatureVector (img : Image) : List ℚ :=
  (centerPatchCoords (Int.ofNat img.rows) (Int.ofNat img.cols)).flatMap fun c =>
    [((img.pix c.1 c.2).b : ℚ), ((img.pix c.1 c.2).g : ℚ), ((img.pix c.1 c.2).r : ℚ)]

/-- C9 evidence. The extractor has no size check: on a 4×4 image it reads
coordinate (-1, -1), which lies outside the image, and still returns a full
147-element vector instead of failing with an OutOfBounds error (the spec's
stated precondition is the intent; the code performs undefined-behavior
out-of-bounds reads).  For images at least 7×7 every accessed coordinate is
in range, so those reads are well defined. -/
theorem centerPatch_reads_out_of_bounds_without_error :
    ((-1 : ℤ), (-1 : ℤ)) ∈ centerPatchCoords 4 4 ∧
    (computeBaselineFeatureVector solidRed4x4).length = 147 ∧
    (∀ rows cols : ℤ, 7 ≤ rows → 7 ≤ cols →
      ∀ c ∈ centerPatchCoords rows cols,
        0 ≤ c.1 ∧ c.1 < rows ∧ 0 ≤ c.2 ∧ c.2 < cols) := by
  refine ⟨by decide, by decide, ?_⟩
  intro rows cols hr hc c hmem
  simp only [centerPatchCoords, List.mem_flatMap, List.mem_map, List.mem_range] at hmem
  obtain ⟨dy, hdy, dx, hdx, rfl⟩ := hmem
  refine ⟨?_, ?_, ?_, ?_⟩ <;> simp only [Int.ofNat_eq_natCast] <;> omega

/-- Witness for the in-range part of the C9 evidence: on a 7×7 image the
coordinate (0, 0) is accessed and is in range. -/
theorem centerPatch_reads_out_of_bounds_without_error_witness :
    ((0 : ℤ), (0 : ℤ)) ∈ centerPatchCoords 7 7 ∧
    (0 : ℤ) ≤ 0 ∧ (0 : ℤ) < 7 ∧ (0 : ℤ) ≤ 0 ∧ (0 : ℤ) < 7 :=
  ⟨by decide,
   centerPatch_reads_out_of_bounds_without_error.2.2 7 7 (by decide) (by decide)
     (0, 0) (by decide)⟩

/-! ## FeatureStore CSV line discipline

The store file is plain text, one record per line,
`imageId,v1,v2,...,vn`.  Lines are modelled as `List Char`. -/

/-- Split one CSV line at commas: the model of the readers' repeated
`getline(ss, value, ',')` loop (find_matches.cpp:131-140,
find_matchescolortexture.cpp:121-133, custom_design.cpp:61-75,
findmatcheswithdeepnetwork.cpp:62-76). -/
def splitComma : List Char → List (List Char)
  | [] => [[]]
  | c :: rest =>
    let r := splitComma rest
    if c = ',' then [] :: r else (c :: r.headD []) :: r.tail

/-- Join CSV fields with commas: the model of the writers'
`outFile << id; for (v : vec) outFile << "," << v;`
(compute_features.cpp:123-127 and likewise the other extractors). -/
def joinComma : List (List Char) → List Char
  | [] => []
  | [f] => f
  | f :: fs => f ++ ',' :: joinComma fs

theorem splitComma_ne_nil (l : List Char) : splitComma l ≠ [] := by
  cases l with
  | nil => simp [splitComma]
  | cons c rest =>
    rw [splitComma]
    by_cases hc : c = ',' <;> simp [hc]

theorem splitComma_no_comma (f : List Char) (h : ',' ∉ f) : splitComma f = [f] := by
  induction f with
  | nil => rfl
  | cons c t ih =>
    have hc : ¬ c = ',' := fun hcc => h (hcc ▸ List.mem_cons_self c t)
    have ht : ',' ∉ t := fun htt => h (List.mem_cons_of_mem c htt)
    rw [splitComma, ih ht]
    simp [hc]

theorem splitComma_comma_append (f rest : List Char) (h : ',' ∉ f) :
    splitComma (f ++ ',' :: rest) = f :: splitComma rest := by
  induction f with
  | nil => simp [splitComma]
  | cons c t ih =>
    have hc : ¬ c = ',' := fun hcc => h (hcc ▸ List.mem_cons_self c t)
    have ht : ',' ∉ t := fun htt => h (List.mem_cons_of_mem c htt)
    rw [List.cons_append, splitComma, ih ht]
    simp [hc]

theorem splitComma_joinComma (fs : List (List Char)) (hne : fs ≠ [])
    (h : ∀ f ∈ fs, ',' ∉ f) : splitComma (joinComma fs) = fs := by
  induction fs with
  | nil => exact absurd rfl hne
  | cons f fs' ih =>
    cases fs' with
    | nil => exact splitComma_no_comma f (h f (List.mem_cons_self f []))
    | cons g gs =>
      have hjoin : joinComma (f :: g :: gs) = f ++ ',' :: joinComma (g :: gs) := rfl
      rw [hjoin, splitComma_comma_append f _ (h f (List.mem_cons_self f (g :: gs))),
        ih (by simp) (fun x hx => h x (List.mem_cons_of_mem f hx))]

/-! ## Decimal rendering and parsing of feature values

The C++ writers print each float with `operator<<` and the readers parse
with `stof`.  The model renders a ℚ value as an exact decimal string
(sign, integer digits, '.', fraction digits) and parses that decimal
grammar back; this is the lossless idealization of the float text channel
(every IEEE float value is a decimal-representable rational, and the
claim's "within float precision" tolerance absorbs the printer's rounding). -/

/-- Base-10 digits of a natural number, most significant first ([] for 0). -/
def natDigits : ℕ → List ℕ
  | 0 => []
  | n + 1 => natDigits ((n + 1) / 10) ++ [(n + 1) % 10]
decreasing_by exact Nat.div_lt_self (Nat.succ_pos n) (by norm_num)

/-- Recombine base-10 digits. -/
def ofDigits (l : List ℕ) : ℕ :=
  l.foldl (fun a d => a * 10 + d) 0

theorem ofDigits_append_one (l : List ℕ) (d : ℕ) :
    ofDigits (l ++ [d]) = ofDigits l * 10 + d := by
  simp [ofDigits, List.foldl_append]

theorem ofDigits_natDigits (n : ℕ) : ofDigits (natDigits n) = n := by
  induction n using Nat.strong_induction_on with
  | _ n ih =>
    match n with
    | 0 => simp [natDigits, ofDigits]
    | m + 1 =>
      rw [natDigits, ofDigits_append_one,
        ih ((m + 1) / 10) (Nat.div_lt_self (Nat.succ_pos m) (by norm_num))]
      omega

theorem natDigits_lt_ten (n : ℕ) : ∀ d ∈ natDigits n, d < 10 := by
  induction n using Nat.strong_induction_on with
  | _ n ih =>
    match n with
    | 0 => intro d hd; simp [natDigits] at hd
    | m + 1 =>
      intro d hd
      rw [natDigits] at hd
      rcases List.mem_append.mp hd with h | h
      · exact ih ((m + 1) / 10) (Nat.div_lt_self (Nat.succ_pos m) (by norm_num)) d h
      · simp at h
        omega

theorem natDigits_length_le (k : ℕ) : ∀ n, n < 10 ^ k → (natDigits n).length ≤ k := by
  induction k with
  | zero =>
    intro n hn
    interval_cases n
    simp [natDigits]
  | succ k ih =>
    intro n hn
    match n with
    | 0 => simp [natDigits]
    | m + 1 =>
      rw [natDigits, List.length_append]
      have : (m + 1) / 10 < 10 ^ k := by
        rw [Nat.div_lt_iff_lt_mul (by norm_num)]
        calc m + 1 < 10 ^ (k + 1) := hn
        _ = 10 ^ k * 10 := by ring
      have := ih _ this
      simp
      omega

/-- The character of one decimal digit (`'0'` + d). -/
def digitChar (d : ℕ) : Char :=
  Char.ofNat (48 + d)

/-- The numeric value of a decimal digit character. -/
def charVal (c : Char) : ℕ :=
  c.toNat - 48

/-- Digit characters of a natural number, most significant first. -/
def natChars (n : ℕ) : List Char :=
  (natDigits n).map digitChar

theorem charVal_digitChar : ∀ d, d < 10 → charVal (digitChar d) = d := by decide

theorem digitChar_ne_dot : ∀ d, d < 10 → digitChar d ≠ '.' := by decide

theorem mem_natChars (n : ℕ) :
    ∀ c ∈ natChars n, ∃ d, d < 10 ∧ c = digitChar d := by
  intro c hc
  rcases List.mem_map.mp hc with ⟨d, hd, rfl⟩
  exact ⟨d, natDigits_lt_ten n d hd, rfl⟩

theorem dot_not_mem_natChars (n : ℕ) : '.' ∉ natChars n := by
  intro hmem
  rcases mem_natChars n _ hmem with ⟨d, hd, heq⟩
  exact digitChar_ne_dot d hd heq.symm

theorem comma_not_mem_natChars (n : ℕ) : ',' ∉ natChars n := by
  intro hmem
  rcases mem_natChars n _ hmem with ⟨d, hd, heq⟩
  have : ∀ d, d < 10 → digitChar d ≠ ',' := by decide
  exact this d hd heq.symm

/-- Parse a run of decimal digit characters (accumulator form of `stof`'s
integer-part scan). -/
def parseNatChars (l : List Char) : ℕ :=
  l.foldl (fun a c => a * 10 + charVal c) 0

theorem foldl_parse_map_digitChar (ds : List ℕ) (h : ∀ d ∈ ds, d < 10) :
    ∀ a : ℕ, (ds.map digitChar).foldl (fun a c => a * 10 + charVal c) a =
      ds.foldl (fun a d => a * 10 + d) a := by
  induction ds with
  | nil => intro a; rfl
  | cons d t ih =>
    intro a
    have hd : d < 10 := h d (List.mem_cons_self d t)
    simp only [List.map_cons, List.foldl_cons,
      charVal_digitChar d hd]
    exact ih (fun x hx => h x (List.mem_cons_of_mem d hx)) _

theorem parseNatChars_natChars (n : ℕ) : parseNatChars (natChars n) = n := by
  rw [parseNatChars, natChars, foldl_parse_map_digitChar _ (natDigits_lt_ten n)]
  exact ofDigits_natDigits n

theorem parseNatChars_replicate_zero (p : ℕ) (l : List Char) :
    parseNatChars (List.replicate p '0' ++ l) = parseNatChars l := by
  have hzero : ∀ p, (List.replicate p '0').foldl (fun a c => a * 10 + charVal c) 0 = 0 := by
    intro p
    induction p with
    | zero => rfl
    | succ q ih => simpa [List.replicate_succ, charVal] using ih
  rw [parseNatChars, List.foldl_append, hzero p]
  rfl

/-- Integer-part digit characters of the decimal rendering of `n / d`
(a lone '0' when the integer part is zero). -/
def ratIntChars (n d : ℕ) : List Char :=
  if n / d = 0 then ['0'] else natChars (n / d)

/-- Fraction-part digit characters: `d` decimal digits (zero-padded) of the
scaled remainder `n % d * 10 ^ d / d`, exact whenever `d ∣ 10 ^ d`. -/
def ratFracChars (n d : ℕ) : List Char :=
  List.replicate (d - (natChars (n % d * 10 ^ d / d)).length) '0' ++
    natChars (n % d * 10 ^ d / d)

/-- Exact decimal rendering of a ℚ value: optional '-', integer digits,
'.', fraction digits.  This models the locale-independent decimal text the
writers emit with `operator<<` for each float vector element. -/
def ratToChars (q : ℚ) : List Char :=
  if q.num < 0
  then '-' :: (ratIntChars q.num.natAbs q.den ++ '.' :: ratFracChars q.num.natAbs q.den)
  else ratIntChars q.num.natAbs q.den ++ '.' :: ratFracChars q.num.natAbs q.den

/-- Split a field at its first '.' (decimal-point scan of `stof`). -/
def splitDot : List Char → List Char × List Char
  | [] => ([], [])
  | c :: rest =>
    if c = '.' then ([], rest)
    else (c :: (splitDot rest).1, (splitDot rest).2)

/-- Parse an unsigned decimal field: integer digits plus fraction digits
scaled down by the number of fraction places (the decimal grammar `stof`
accepts on the writers' output). -/
def parseUnsignedRat (l : List Char) : ℚ :=
  (parseNatChars (splitDot l).1 : ℚ) +
    (parseNatChars (splitDot l).2 : ℚ) / 10 ^ (splitDot l).2.length

/-- Parse a decimal field with optional leading '-' (`stof` sign handling). -/
def parseRatChars (l : List Char) : ℚ :=
  if l.headD ' ' = '-' then -(parseUnsignedRat l.tail) else parseUnsignedRat l

theorem splitDot_append (a b : List Char) (h : '.' ∉ a) :
    splitDot (a ++ '.' :: b) = (a, b) := by
  induction a with
  | nil => simp [splitDot]
  | cons c t ih =>
    have hc : ¬ c = '.' := fun hcc => h (hcc ▸ List.mem_cons_self c t)
    have ht : '.' ∉ t := fun htt => h (List.mem_cons_of_mem c htt)
    rw [List.cons_append, splitDot, ih ht]
    simp [hc]

theorem dot_not_mem_ratIntChars (n d : ℕ) : '.' ∉ ratIntChars n d := by
  rw [ratIntChars]
  by_cases h : n / d = 0
  · simp [h]
  · rw [if_neg h]
    exact dot_not_mem_natChars _

theorem parseNatChars_ratIntChars (n d : ℕ) :
    parseNatChars (ratIntChars n d) = n / d := by
  rw [ratIntChars]
  by_cases h : n / d = 0
  · rw [h]
    simp only [if_pos rfl]
    decide
  · rw [if_neg h]
    exact parseNatChars_natChars _

theorem fracPart_lt (n d : ℕ) (hd : 0 < d) : n % d * 10 ^ d / d < 10 ^ d := by
  rw [Nat.div_lt_iff_lt_mul hd]
  have hm : n % d < d := Nat.mod_lt n hd
  have hp : 0 < 10 ^ d := Nat.pos_pow_of_pos d (by norm_num)
  calc n % d * 10 ^ d < d * 10 ^ d := mul_lt_mul_of_pos_right hm hp
  _ = 10 ^ d * d := Nat.mul_comm d _

theorem ratFracChars_length (n d : ℕ) (hd : 0 < d) : (ratFracChars n d).length = d := by
  rw [ratFracChars, List.length_append, List.length_replicate]
  have hlen : (natChars (n % d * 10 ^ d / d)).length ≤ d := by
    rw [natChars, List.length_map]
    exact natDigits_length_le d _ (fracPart_lt n d hd)
  omega

theorem parseNatChars_ratFracChars (n d : ℕ) :
    parseNatChars (ratFracChars n d) = n % d * 10 ^ d / d := by
  rw [ratFracChars, parseNatChars_replicate_zero]
  exact parseNatChars_natChars _

theorem parseUnsignedRat_body (n d : ℕ) (hd : 0 < d) (hdiv : d ∣ 10 ^ d) :
    parseUnsignedRat (ratIntChars n d ++ '.' :: ratFracChars n d) = (n : ℚ) / d := by
  rw [parseUnsignedRat, splitDot_append _ _ (dot_not_mem_ratIntChars n d)]
  simp only [parseNatChars_ratIntChars, parseNatChars_ratFracChars,
    ratFracChars_length n d hd]
  have hdq : (d : ℚ) ≠ 0 := Nat.cast_ne_zero.mpr (Nat.pos_iff_ne_zero.mp hd)
  have hpq : ((10 : ℚ) ^ d) ≠ 0 := by positivity
  have hfq : ((n % d * 10 ^ d / d : ℕ) : ℚ) = (n % d : ℕ) * 10 ^ d / d := by
    rw [Nat.cast_div (Dvd.dvd.mul_left hdiv _) hdq]
    push_cast
    ring
  have h2 : ((n % d : ℕ) : ℚ) * 10 ^ d / d / 10 ^ d = ((n % d : ℕ) : ℚ) / d := by
    field_simp
    ring
  rw [hfq, h2]
  have key : ((n / d : ℕ) : ℚ) * d + ((n % d : ℕ) : ℚ) = n := by
    have h := Nat.div_add_mod n d
    calc ((n / d : ℕ) : ℚ) * d + ((n % d : ℕ) : ℚ)
        = ((d * (n / d) + n % d : ℕ) : ℚ) := by push_cast; ring
    _ = (n : ℚ) := by rw [h]
  rw [eq_div_iff hdq, add_mul, div_mul_cancel₀ _ hdq]
  exact key

theorem mem_ratIntChars_ne_dash (n d : ℕ) : ∀ c ∈ ratIntChars n d, c ≠ '-' := by
  intro c hc
  rw [ratIntChars] at hc
  by_cases h : n / d = 0
  · rw [if_pos h] at hc
    simp at hc
    rw [hc]
    decide
  · rw [if_neg h] at hc
    rcases mem_natChars _ c hc with ⟨e, he, rfl⟩
    have hdash : ∀ e, e < 10 → digitChar e ≠ '-' := by decide
    exact hdash e he

theorem ratIntChars_ne_nil (n d : ℕ) : ratIntChars n d ≠ [] := by
  rw [ratIntChars]
  by_cases h : n / d = 0
  · simp [h]
  · rw [if_neg h]
    rcases hnd : n / d with _ | m
    · exact absurd hnd h
    · rw [natChars, natDigits]
      simp

theorem headD_body_ne_dash (n d : ℕ) (rest : List Char) :
    (ratIntChars n d ++ rest).headD ' ' ≠ '-' := by
  rcases hi : ratIntChars n d with _ | ⟨c, t⟩
  · exact absurd hi (ratIntChars_ne_nil n d)
  · have hc : c ∈ ratIntChars n d := by rw [hi]; exact List.mem_cons_self c t
    simpa using mem_ratIntChars_ne_dash n d c hc

/-- Round trip of one decimal field: parsing the rendered text of a ℚ value
whose denominator is a 2-5-smooth number (every float is) recovers the value
exactly. -/
theorem parseRatChars_ratToChars (q : ℚ) (h : q.den ∣ 10 ^ q.den) :
    parseRatChars (ratToChars q) = q := by
  have hd : 0 < q.den := q.pos
  have hbody := parseUnsignedRat_body q.num.natAbs q.den hd h
  by_cases hneg : q.num < 0
  · rw [ratToChars, if_pos hneg, parseRatChars]
    simp only [List.headD_cons, List.tail_cons, if_pos rfl]
    rw [hbody, Int.cast_natAbs, Int.cast_abs,
      abs_of_neg (show ((q.num : ℚ)) < 0 by exact_mod_cast hneg)]
    rw [neg_div, neg_neg]
    exact Rat.num_div_den q
  · rw [ratToChars, if_neg hneg, parseRatChars,
      if_neg (headD_body_ne_dash q.num.natAbs q.den _), hbody, Int.cast_natAbs, Int.cast_abs,
      abs_of_nonneg (show (0 : ℚ) ≤ (q.num : ℚ) by exact_mod_cast not_lt.mp hneg)]
    exact Rat.num_div_den q

theorem comma_not_mem_ratToChars (q : ℚ) : ',' ∉ ratToChars q := by
  have hint : ',' ∉ ratIntChars q.num.natAbs q.den := by
    rw [ratIntChars]
    by_cases h : q.num.natAbs / q.den = 0
    · simp [h]
    · rw [if_neg h]
      exact comma_not_mem_natChars _
  have hfrac : ',' ∉ ratFracChars q.num.natAbs q.den := by
    rw [ratFracChars]
    intro hmem
    rcases List.mem_append.mp hmem with hrep | hnat
    · have := List.eq_of_mem_replicate hrep
      exact absurd this (by decide)
    · exact comma_not_mem_natChars _ hnat
  rw [ratToChars]
  by_cases hneg : q.num < 0
  · rw [if_pos hneg]
    intro hmem
    rcases List.mem_cons.mp hmem with h1 | h2
    · exact absurd h1 (by decide)
    · rcases List.mem_append.mp h2 with h3 | h4
      · exact hint h3
      · rcases List.mem_cons.mp h4 with h5 | h6
        · exact absurd h5 (by decide)
        · exact hfrac h6
  · rw [if_neg hneg]
    intro hmem
    rcases List.mem_append.mp hmem with h3 | h4
    · exact hint h3
    · rcases List.mem_cons.mp h4 with h5 | h6
      · exact absurd h5 (by decide)
      · exact hfrac h6

/-! ## FeatureStore records (§4.4): one line per record, imageId first,
then the vector elements, comma-delimited -/

/-- One persisted record: `{ imageId, vector }`. -/
structure FeatureRecord where
  imageId : List Char
  vec : List ℚ

/-- The line an extractor writes for one record
(compute_features.cpp:122-128): the imageId, then `,` and the decimal text
of each vector element. -/
def writeRecordLine (r : FeatureRecord) : List Char :=
  joinComma (r.imageId :: r.vec.map ratToChars)

/-- The record a matcher parses back from one line
(find_matches.cpp:128-147): first comma-field is the imageId, every further
comma-field is parsed as a float. -/
def readRecordLine (l : List Char) : FeatureRecord :=
  { imageId := (splitComma l).headD []
    vec := ((splitComma l).tail).map parseRatChars }

/-- The offline pass writes one line per record, in order. -/
def writeStore (records : List FeatureRecord) : List (List Char) :=
  records.map writeRecordLine

/-- The online pass parses every line, in order. -/
def readStore (lines : List (List Char)) : List FeatureRecord :=
  lines.map readRecordLine

theorem readRecordLine_writeRecordLine (r : FeatureRecord) (hid : ',' ∉ r.imageId)
    (hvec : ∀ q ∈ r.vec, q.den ∣ 10 ^ q.den) :
    readRecordLine (writeRecordLine r) = r := by
  have hfields : ∀ f ∈ r.imageId :: r.vec.map ratToChars, ',' ∉ f := by
    intro f hf
    rcases List.mem_cons.mp hf with rfl | hf2
    · exact hid
    · rcases List.mem_map.mp hf2 with ⟨q, _, rfl⟩
      exact comma_not_mem_ratToChars q
  have hsplit : splitComma (writeRecordLine r) = r.imageId :: r.vec.map ratToChars :=
    splitComma_joinComma _ (by simp) hfields
  rw [readRecordLine, hsplit]
  cases r with
  | mk iden vec =>
    simp only [List.headD_cons, List.tail_cons, List.map_map]
    congr 1
    calc vec.map (parseRatChars ∘ ratToChars) = vec.map (id : ℚ → ℚ) := by
          apply List.map_congr_left
          intro q hq
          exact parseRatChars_ratToChars q (hvec q hq)
    _ = vec := List.map_id vec

/-- C4. Writing a store of records whose imageIds contain no comma (and whose
values are decimal-representable rationals, as every float is) and reading it
back yields the same record count, the same imageIds in the same order, and
exactly the original vector values. -/
theorem store_roundtrip (records : List FeatureRecord)
    (hid : ∀ r ∈ records, ',' ∉ r.imageId)
    (hvec : ∀ r ∈ records, ∀ q ∈ r.vec, q.den ∣ 10 ^ q.den) :
    readStore (writeStore records) = records ∧
    (readStore (writeStore records)).length = records.length ∧
    (readStore (writeStore records)).map FeatureRecord.imageId
      = records.map FeatureRecord.imageId := by
  have hmain : readStore (writeStore records) = records := by
    rw [readStore, writeStore, List.map_map]
    calc records.map (readRecordLine ∘ writeRecordLine)
        = records.map (id : FeatureRecord → FeatureRecord) := by
          apply List.map_congr_left
          intro r hr
          exact readRecordLine_writeRecordLine r (hid r hr) (hvec r hr)
    _ = records := List.map_id records
  exact ⟨hmain, by rw [hmain], by rw [hmain]⟩

/-- Witness for C4 at a concrete two-record store. -/
theorem store_roundtrip_witness :
    readStore (writeStore [⟨['a'], [3]⟩, ⟨['b'], []⟩]) = [⟨['a'], [3]⟩, ⟨['b'], []⟩] ∧
    (readStore (writeStore [⟨['a'], [3]⟩, ⟨['b'], []⟩])).length =
      ([⟨['a'], [3]⟩, ⟨['b'], []⟩] : List FeatureRecord).length ∧
    (readStore (writeStore [⟨['a'], [3]⟩, ⟨['b'], []⟩])).map FeatureRecord.imageId =
      ([⟨['a'], [3]⟩, ⟨['b'], []⟩] : List FeatureRecord).map FeatureRecord.imageId :=
  store_roundtrip [⟨['a'], [3]⟩, ⟨['b'], []⟩]
    (by decide)
    (by decide)

/-! ## C3: what the offline extraction pass writes as imageId -/

/-- `fs::path(p).filename()`: the basename of a path — everything after the
last '/'.  (Used by the matchers in custom_design.cpp:172 and
findmatcheswithdeepnetwork.cpp:115 on the *target* argument, but never by
the extractors on the corpus paths they write.) -/
def basenameChars (path : List Char) : List Char :=
  (path.reverse.takeWhile (fun c => ¬ c = '/')).reverse

/-- C3 counterexample.  The extraction pass (compute_features.cpp:101-128)
writes `filename` — the directory entry's full path string, e.g.
"imgs/a.jpg" — as the first field of the record line, which differs from the
basename "a.jpg"; so a matcher looking up by basename does not find records
written from a directory prefix. -/
theorem imageId_written_is_not_basename :
    (splitComma (writeRecordLine ⟨"imgs/a.jpg".data, []⟩)).headD [] = "imgs/a.jpg".data ∧
    basenameChars "imgs/a.jpg".data = "a.jpg".data ∧
    "imgs/a.jpg".data ≠ "a.jpg".data := by
  refine ⟨?_, by decide, by decide⟩
  decide

/-- C3 amended: the imageId written as the first field of a record is the
full source path exactly as enumerated (directory prefix included), not its
basename. -/
theorem imageId_written_is_entry_path (path : List Char) (vec : List ℚ)
    (h : ',' ∉ path) :
    (splitComma (writeRecordLine ⟨path, vec⟩)).headD [] = path := by
  rcases hv : vec.map ratToChars with _ | ⟨f, fs⟩
  · have : writeRecordLine ⟨path, vec⟩ = path := by
      rw [writeRecordLine]
      simp only [hv]
      rfl
    rw [this, splitComma_no_comma path h]
    rfl
  · have : writeRecordLine ⟨path, vec⟩ = path ++ ',' :: joinComma (f :: fs) := by
      rw [writeRecordLine]
      simp only [hv]
      rfl
    rw [this, splitComma_comma_append path _ h]
    rfl

/-- Witness for the amended C3 at a concrete path with a directory prefix. -/
theorem imageId_written_is_entry_path_witness :
    (splitComma (writeRecordLine ⟨"imgs/pic.0001.jpg".data, []⟩)).headD []
      = "imgs/pic.0001.jpg".data :=
  imageId_written_is_entry_path "imgs/pic.0001.jpg".data [] (by decide)

/-! ## TopKMatcher (find_matches.cpp:116-159 and the other match programs) -/

/-- `computeSSD` (find_matches.cpp:71-80): sum of squared differences,
looping over `vec1.size()` indices of both vectors (callers pass
equal-length vectors). -/
def computeSSD (vec1 vec2 : List ℚ) : ℚ :=
  ((List.range vec1.length).map
    (fun i => (vec1.getD i 0 - vec2.getD i 0) * (vec1.getD i 0 - vec2.getD i 0))).sum

/-- Lexicographic byte-wise comparison of two id strings:
`std::string::operator<` restricted to ≤ form. -/
def charListLE : List Char → List Char → Bool
  | [], _ => true
  | _ :: _, [] => false
  | c :: cs, d :: ds => if c = d then charListLE cs ds else decide (c < d)

/-- The (score, imageId) order `std::sort(distances.begin(), distances.end())`
produces over `pair<float, string>`: lexicographic — ascending score, and on
exactly equal scores ascending imageId. -/
def scoreIdLE (a b : ℚ × List Char) : Bool :=
  decide (a.1 < b.1) || (decide (a.1 = b.1) && charListLE a.2 b.2)

/-- Scoring pass of find_matches.cpp:129-147: one (distance, imageId) pair
per store record, in store order. -/
def scoreRecords (target : List ℚ) (records : List (List Char × List ℚ)) :
    List (ℚ × List Char) :=
  records.map fun r => (computeSSD target r.2, r.1)

/-- The ascending sort of find_matches.cpp:152 (`std::sort` with the default
`pair` comparison; also custom_design.cpp:233, find_matcheshisto.cpp:161,
findmatcheswithdeepnetwork.cpp:160). -/
def sortDistancesAsc (l : List (ℚ × List Char)) : List (ℚ × List Char) :=
  l.mergeSort scoreIdLE

/-- The descending sort of find_matchescolortexture.cpp:218 and
find_matchesmulti.cpp:179 (`std::sort` with `greater<pair<float, string>>`). -/
def sortDistancesDesc (l : List (ℚ × List Char)) : List (ℚ × List Char) :=
  l.mergeSort (fun a b => scoreIdLE b a)

/-- The ranked output of find_matches.cpp:151-159: sort ascending, then
report the first `min(numMatches, size)` entries. -/
def rankMatches (target : List ℚ) (records : List (List Char × List ℚ))
    (k : ℕ) : List (ℚ × List Char) :=
  (sortDistancesAsc (scoreRecords target records)).take k

theorem charListLE_total (a : List Char) :
    ∀ b, (charListLE a b || charListLE b a) = true := by
  induction a with
  | nil => intro b; simp [charListLE]
  | cons c cs ih =>
    intro b
    cases b with
    | nil => simp [charListLE]
    | cons d ds =>
      by_cases hcd : c = d
      · subst hcd
        simpa [charListLE] using ih ds
      · have hdc : ¬ d = c := fun h => hcd h.symm
        rcases lt_or_gt_of_ne hcd with hlt | hgt
        · simp [charListLE, hcd, hdc, hlt]
        · simp [charListLE, hcd, hdc, hgt]

theorem charListLE_trans :
    ∀ a b c : List Char, charListLE a b = true → charListLE b c = true →
      charListLE a c = true := by
  intro a
  induction a with
  | nil => intro b c _ _; simp [charListLE]
  | cons x xs ih =>
    intro b c hab hbc
    cases b with
    | nil => simp [charListLE] at hab
    | cons y ys =>
      cases c with
      | nil => simp [charListLE] at hbc
      | cons z zs =>
        by_cases hxy : x = y <;> by_cases hyz : y = z
        · subst hxy; subst hyz
          simp only [charListLE, if_pos rfl] at hab hbc ⊢
          exact ih ys zs hab hbc
        · subst hxy
          simp only [charListLE, if_pos rfl, if_neg hyz, decide_eq_true_eq] at hbc ⊢
          simp [hyz, hbc]
        · subst hyz
          simp only [charListLE, if_pos rfl, if_neg hxy, decide_eq_true_eq] at hab ⊢
          simp [hxy, hab]
        · simp only [charListLE, if_neg hxy, if_neg hyz, decide_eq_true_eq] at hab hbc
          have hxz : x < z := lt_trans hab hbc
          simp [charListLE, ne_of_lt hxz, hxz]

theorem scoreIdLE_trans : ∀ a b c : ℚ × List Char,
    scoreIdLE a b = true → scoreIdLE b c = true → scoreIdLE a c = true := by
  intro a b c hab hbc
  simp only [scoreIdLE, Bool.or_eq_true, Bool.and_eq_true, decide_eq_true_eq] at *
  rcases hab with h1 | ⟨h1, h2⟩ <;> rcases hbc with h3 | ⟨h3, h4⟩
  · exact Or.inl (lt_trans h1 h3)
  · exact Or.inl (h3 ▸ h1)
  · exact Or.inl (h1 ▸ h3)
  · exact Or.inr ⟨h1.trans h3, charListLE_trans _ _ _ h2 h4⟩

theorem scoreIdLE_total : ∀ a b : ℚ × List Char,
    (scoreIdLE a b || scoreIdLE b a) = true := by
  intro a b
  simp only [scoreIdLE, Bool.or_eq_true, Bool.and_eq_true, decide_eq_true_eq]
  rcases lt_trichotomy a.1 b.1 with h | h | h
  · exact Or.inl (Or.inl h)
  · rcases Bool.or_eq_true _ _ |>.mp (charListLE_total a.2 b.2) with hc | hc
    · exact Or.inl (Or.inr ⟨h, hc⟩)
    · exact Or.inr (Or.inr ⟨h.symm, hc⟩)
  · exact Or.inr (Or.inl h)

/-- C5. For every store and K: if K ≥ the number of records the ranked
output contains every scored record exactly once (a permutation of the
scoring pass's output) and is fully sorted; an empty store yields an empty
ranked list (no error — there is no error path); K = 0 yields an empty
list. -/
theorem topK_entire_store_empty_store_and_zero_k
    (target : List ℚ) (records : List (List Char × List ℚ)) (k : ℕ) :
    (records.length ≤ k →
      (rankMatches target records k).Perm (scoreRecords target records) ∧
      List.Sorted (fun a b => scoreIdLE a b = true) (rankMatches target records k)) ∧
    (records = [] → rankMatches target records k = []) ∧
    (k = 0 → rankMatches target records k = []) := by
  refine ⟨?_, ?_, ?_⟩
  · intro hk
    have hlen : (sortDistancesAsc (scoreRecords target records)).length ≤ k := by
      rw [sortDistancesAsc, (List.mergeSort_perm _ _).length_eq, scoreRecords,
        List.length_map]
      exact hk
    have htake : rankMatches target records k
        = sortDistancesAsc (scoreRecords target records) := by
      rw [rankMatches, List.take_of_length_le hlen]
    constructor
    · rw [htake, sortDistancesAsc]
      exact List.mergeSort_perm _ _
    · rw [htake, sortDistancesAsc]
      exact List.sorted_mergeSort scoreIdLE_trans scoreIdLE_total _
  · intro h
    subst h
    simp [rankMatches, sortDistancesAsc, scoreRecords]
  · intro h
    subst h
    simp [rankMatches]

/-- Witness for C5: a two-record store with K = 3 (K larger than the store),
an empty store with K = 5, and K = 0. -/
theorem topK_entire_store_empty_store_and_zero_k_witness :
    ((rankMatches [] [(['b'], []), (['a'], [])] 3).Perm
        (scoreRecords [] [(['b'], []), (['a'], [])]) ∧
      List.Sorted (fun a b => scoreIdLE a b = true)
        (rankMatches [] [(['b'], []), (['a'], [])] 3)) ∧
    rankMatches [] [] 5 = [] ∧
    rankMatches [] [(['b'], []), (['a'], [])] 0 = [] :=
  ⟨(topK_entire_store_empty_store_and_zero_k [] [(['b'], []), (['a'], [])] 3).1
      (by simp),
   (topK_entire_store_empty_store_and_zero_k [] [] 5).2.1 rfl,
   (topK_entire_store_empty_store_and_zero_k [] [(['b'], []), (['a'], [])] 0).2.2 rfl⟩

/-- C6 counterexample.  In the similarity-style programs
(find_matchescolortexture.cpp:218, find_matchesmulti.cpp:179 — `std::sort`
with `greater<pair<float, string>>`), two records with exactly equal scores
are ordered by imageId in DESCENDING lexical order: with equal scores 1,
id "b" is ranked before id "a", contradicting the claimed ascending order
for distance- and similarity-style metrics alike. -/
theorem similarity_sort_breaks_ties_descending :
    sortDistancesDesc [(1, ['a']), (1, ['b'])] = [(1, ['b']), (1, ['a'])] := by
  simp +decide [sortDistancesDesc, List.mergeSort, List.merge]

/-- C6 amended.  Tie-breaking is deterministic in every matching program but
its direction follows the comparator: the distance-style programs (default
`pair` less-than, ascending sort) order equal-score records by imageId in
ascending lexical order, while the similarity-style programs
(`greater<pair>`, descending sort) order equal-score records by imageId in
descending lexical order. -/
theorem tie_break_follows_sort_direction (l : List (ℚ × List Char)) :
    List.Sorted (fun a b : ℚ × List Char =>
      a.1 < b.1 ∨ (a.1 = b.1 ∧ charListLE a.2 b.2 = true)) (sortDistancesAsc l) ∧
    List.Sorted (fun a b : ℚ × List Char =>
      b.1 < a.1 ∨ (a.1 = b.1 ∧ charListLE b.2 a.2 = true)) (sortDistancesDesc l) := by
  constructor
  · have h := List.sorted_mergeSort scoreIdLE_trans scoreIdLE_total l
    refine List.Pairwise.imp ?_ h
    intro a b hab
    simpa only [scoreIdLE, Bool.or_eq_true, Bool.and_eq_true, decide_eq_true_eq]
      using hab
  · have htrans : ∀ a b c : ℚ × List Char,
        scoreIdLE b a = true → scoreIdLE c b = true → scoreIdLE c a = true :=
      fun a b c hab hbc => scoreIdLE_trans c b a hbc hab
    have htotal : ∀ a b : ℚ × List Char,
        (scoreIdLE b a || scoreIdLE a b) = true :=
      fun a b => by rw [Bool.or_comm]; exact scoreIdLE_total a b
    have h := @List.sorted_mergeSort _ (fun a b => scoreIdLE b a) htrans htotal l
    refine List.Pairwise.imp ?_ h
    intro a b hab
    simp only [scoreIdLE, Bool.or_eq_true, Bool.and_eq_true, decide_eq_true_eq] at hab
    rcases hab with h1 | ⟨h1, h2⟩
    · exact Or.inl h1
    · exact Or.inr ⟨h1.symm, h2⟩
